import Mathlib

set_option maxHeartbeats 1000000

/-!
Shallow embedding of the name-resolution engine of
`src/app_pec_assinaturas.py` (functions `_strip_accents`, `normalize_name`,
`parse_assinantes`, `build_index`, `apply_aliases`, `match_assinantes`,
and the constant tables `ALIASES_OFICIAIS`, `STOPWORDS_LINHAS`).

Strings are modelled as `List Char` (accessed through `String.data`), and
Python's `unicodedata.normalize("NFKD", ·)` is modelled character-wise by a
decomposition table covering the Latin-1 letters with diacritics (the
alphabet of the application's data: Brazilian deputy names); code points
below U+00A0 decompose to themselves, exactly as in Unicode NFKD.
-/

/-- Whitespace class of Python's `\s` / `str.strip` restricted to the
code points that can occur here (ASCII whitespace, the C1 separators,
NEL and NBSP). -/
def isWsCh (c : Char) : Bool :=
  c == ' ' || c == '\t' || c == '\n' || c == '\r' || c == '\x0b' || c == '\x0c' ||
  c == '\x1c' || c == '\x1d' || c == '\x1e' || c == '\x1f' || c == '\x85' || c == ' '

/-- Lower-case ASCII letter or digit, the characters kept by the final
`re.sub(r"[^a-z0-9\s]", "", s)` filter of `normalize_name`. -/
def lowerAlnumB (c : Char) : Bool :=
  (97 ≤ c.toNat && c.toNat ≤ 122) || (48 ≤ c.toNat && c.toNat ≤ 57)

/-- ASCII lower-casing, which is all `str.lower()` can do after NFKD
decomposition has already reduced the accented letters to ASCII. -/
def toLowerCh (c : Char) : Char :=
  if 65 ≤ c.toNat && c.toNat ≤ 90 then Char.ofNat (c.toNat + 32) else c

/-- The three literal `str.replace` calls of `normalize_name` (curly
apostrophe and curly double quotes to their ASCII forms). -/
def replQuote (c : Char) : Char :=
  if c == '’' then '\'' else if c == '“' then '"' else
  if c == '”' then '"' else c

/-- Combining-mark test of `unicodedata.combining(ch) != 0`, restricted to
the block U+0300–U+036F produced by the decomposition table below. -/
def combiningB (c : Char) : Bool := 768 ≤ c.toNat && c.toNat < 880

def mGrave : Char := Char.ofNat 768
def mAcute : Char := Char.ofNat 769
def mCirc : Char := Char.ofNat 770
def mTilde : Char := Char.ofNat 771
def mMacron : Char := Char.ofNat 772
def mDiaer : Char := Char.ofNat 776
def mRing : Char := Char.ofNat 778
def mCedil : Char := Char.ofNat 807

/-- NFKD decompositions of the Latin-1 code points U+00A0–U+00FF that
decompose (the remaining Latin-1 letters, such as `ø` and `ß`, have no
decomposition and fall through to the identity default). -/
def nfkdTable : List (Char × List Char) :=
  [ (' ', [' ']), ('¨', [' ', mDiaer]), ('ª', ['a']),
    ('¯', [' ', mMacron]), ('²', ['2']), ('³', ['3']),
    ('´', [' ', mAcute]), ('µ', [Char.ofNat 956]),
    ('¸', [' ', mCedil]), ('¹', ['1']), ('º', ['o']),
    ('¼', ['1', Char.ofNat 8260, '4']),
    ('½', ['1', Char.ofNat 8260, '2']),
    ('¾', ['3', Char.ofNat 8260, '4']),
    ('À', ['A', mGrave]), ('Á', ['A', mAcute]), ('Â', ['A', mCirc]),
    ('Ã', ['A', mTilde]), ('Ä', ['A', mDiaer]), ('Å', ['A', mRing]),
    ('Ç', ['C', mCedil]),
    ('È', ['E', mGrave]), ('É', ['E', mAcute]), ('Ê', ['E', mCirc]),
    ('Ë', ['E', mDiaer]),
    ('Ì', ['I', mGrave]), ('Í', ['I', mAcute]), ('Î', ['I', mCirc]),
    ('Ï', ['I', mDiaer]), ('Ñ', ['N', mTilde]),
    ('Ò', ['O', mGrave]), ('Ó', ['O', mAcute]), ('Ô', ['O', mCirc]),
    ('Õ', ['O', mTilde]), ('Ö', ['O', mDiaer]),
    ('Ù', ['U', mGrave]), ('Ú', ['U', mAcute]), ('Û', ['U', mCirc]),
    ('Ü', ['U', mDiaer]), ('Ý', ['Y', mAcute]),
    ('à', ['a', mGrave]), ('á', ['a', mAcute]), ('â', ['a', mCirc]),
    ('ã', ['a', mTilde]), ('ä', ['a', mDiaer]), ('å', ['a', mRing]),
    ('ç', ['c', mCedil]),
    ('è', ['e', mGrave]), ('é', ['e', mAcute]), ('ê', ['e', mCirc]),
    ('ë', ['e', mDiaer]),
    ('ì', ['i', mGrave]), ('í', ['i', mAcute]), ('î', ['i', mCirc]),
    ('ï', ['i', mDiaer]), ('ñ', ['n', mTilde]),
    ('ò', ['o', mGrave]), ('ó', ['o', mAcute]), ('ô', ['o', mCirc]),
    ('õ', ['o', mTilde]), ('ö', ['o', mDiaer]),
    ('ù', ['u', mGrave]), ('ú', ['u', mAcute]), ('û', ['u', mCirc]),
    ('ü', ['u', mDiaer]), ('ý', ['y', mAcute]), ('ÿ', ['y', mDiaer]) ]

/-- Character-wise NFKD: identity below U+00A0 (faithful to Unicode),
table lookup above. -/
def nfkd (c : Char) : List Char :=
  if c.toNat < 160 then [c]
  else
    match nfkdTable.lookup c with
    | some ds => ds
    | none => [c]

/-- NFKD of a whole string, character by character. -/
def nfkdAll : List Char → List Char
  | [] => []
  | c :: cs => nfkd c ++ nfkdAll cs

/-- One step of `re.sub(r"\s+", " ", s)`: the flag records whether we are
inside a whitespace run that has already emitted its single `' '`. -/
def collapseAux : List Char → Bool → List Char
  | [], _ => []
  | c :: cs, afterWs =>
    if isWsCh c then
      if afterWs then collapseAux cs true else ' ' :: collapseAux cs true
    else c :: collapseAux cs false

/-- Embedding of `re.sub(r"\s+", " ", s)`. -/
def collapseWs (l : List Char) : List Char := collapseAux l false

/-- Remove the trailing whitespace run (the right half of `str.strip()`). -/
def dropTrailWs : List Char → List Char
  | [] => []
  | c :: cs => if (dropTrailWs cs).isEmpty && isWsCh c then [] else c :: dropTrailWs cs

/-- Embedding of `str.strip()`. -/
def stripWsL (l : List Char) : List Char := dropTrailWs (l.dropWhile isWsCh)

/-- Characters kept by `re.sub(r"[^a-z0-9\s]", "", s)`. -/
def keepCh (c : Char) : Bool := lowerAlnumB c || isWsCh c

/-- Embedding of `normalize_name` (src/app_pec_assinaturas.py:392-399):
strip, collapse whitespace, replace curly quotes, NFKD + drop combining
marks (`_strip_accents`), lower-case, delete every character outside
`[a-z0-9\s]`, collapse whitespace again and strip. -/
def normalizeL (l : List Char) : List Char :=
  stripWsL (collapseWs
    ((((nfkdAll ((collapseWs (stripWsL l)).map replQuote)).filter
        (fun c => !combiningB c)).map toLowerCh).filter keepCh))

/-- String-level `normalize_name`. -/
def normalize_name (s : String) : String := String.mk (normalizeL s.data)

/-- Embedding of the `Dep` dataclass (id, nome, siglaPartido, siglaUf,
urlFoto). -/
structure Dep where
  id : Nat
  nome : String
  siglaPartido : String
  siglaUf : String
  urlFoto : String
deriving DecidableEq, Repr

/-- The `Dep.key` property: `normalize_name(self.nome)`. -/
def Dep.key (d : Dep) : String := normalize_name d.nome

/-- The `ALIASES_OFICIAIS` table of the source, literally. -/
def ALIASES_OFICIAIS : List (String × String) :=
  [ ("benes leocadio", "Benes Leocádio"),
    ("gilvan da federal", "Gilvan da Federal"),
    ("rodrigo estacho", "Rodrigo Estacho") ]

/-- The `STOPWORDS_LINHAS` blacklist of the source, literally. -/
def STOPWORDS_LINHAS : List String :=
  [ "coautoria deputado(s)", "coautoria deputados", "subscritor",
    "subscritores", "assinaturas", "assinaram", "assinou" ]

/-- Embedding of `build_index`: a Python dict built by iterating the
roster and assigning `idx[dep.key] = dep`, modelled as the lookup
function it denotes.  A later entry with the same key overwrites an
earlier one, exactly as in the dict. -/
def build_index (deps : List Dep) : String → Option Dep :=
  deps.foldl (fun m dep => fun k => if k = dep.key then some dep else m k)
    (fun _ => none)

/-- The alias substitution applied to one name inside `apply_aliases`. -/
def aliasSub (n : String) : String :=
  (ALIASES_OFICIAIS.lookup (normalize_name n)).getD n

/-- Embedding of `apply_aliases`. -/
def apply_aliases (names : List String) : List String := names.map aliasSub

/-- The title words of the second-chance regex in `match_assinantes`
(src/app_pec_assinaturas.py:511-514), in the order of the alternation. -/
def TITLES : List (List Char) :=
  [ "dep".data, "deputado".data, "dra".data, "dr".data, "delegado".data,
    "coronel".data, "capitao".data, "pr".data, "pastor".data,
    "general".data, "sargento".data ]

/-- Boolean list-prefix test (written out to keep the development
self-contained). -/
def prefixB : List Char → List Char → Bool
  | [], _ => true
  | _ :: _, [] => false
  | a :: as, b :: bs => a == b && prefixB as bs

/-- Embedding of `re.sub(r"^(dep|deputado|...)\s+", "", k).strip()` as it
is applied in `match_assinantes`: `k` is a `normalize_name` output, so the
regex matches exactly when some title word followed by a single space is a
prefix of `k`; that title and the space are removed and the remainder is
stripped (the no-match branch is also stripped, mirroring `.strip()`). -/
def stripTitleL (k : List Char) : List Char :=
  match TITLES.find? (fun t => prefixB (t ++ [' ']) k) with
  | some t => stripWsL (k.drop (t.length + 1))
  | none => stripWsL k

/-- String-level single title strip. -/
def strip_title_once (s : String) : String := String.mk (stripTitleL s.data)

/-- The two-stage dict lookup of `match_assinantes`: first the strict key,
then the key with one leading title stripped. -/
def idxLookup (idx : String → Option Dep) (k : String) : Option Dep :=
  match idx k with
  | some d => some d
  | none => idx (strip_title_once k)

/-- The per-signer loop of `match_assinantes`, with the `seen_dep_ids`
set threaded through; returns (`found`, `nao_encontrados`). -/
def matchLoop (idx : String → Option Dep) : List String → List Nat → List Dep × List String
  | [], _ => ([], [])
  | n :: rest, seen =>
    if normalize_name n = "" then matchLoop idx rest seen
    else
      match idxLookup idx (normalize_name n) with
      | none => ((matchLoop idx rest seen).1, n :: (matchLoop idx rest seen).2)
      | some d =>
        if d.id ∈ seen then matchLoop idx rest seen
        else (d :: (matchLoop idx rest (d.id :: seen)).1,
              (matchLoop idx rest (d.id :: seen)).2)

/-- Embedding of `match_assinantes` (src/app_pec_assinaturas.py:495-539)
up to the DataFrame conversion: the list of matched deputies in match
order and the list of unrecognised names in input order. -/
def match_assinantes (assinantes_raw : List String) (deps : List Dep) :
    List Dep × List String :=
  matchLoop (build_index deps) (apply_aliases assinantes_raw) []

/-- Code-point comparison of names, used to model the deterministic
`df.sort_values(["Nome"])` step. -/
def leChars : List Char → List Char → Bool
  | [], _ => true
  | _ :: _, [] => false
  | a :: as, b :: bs => if a = b then leChars as bs else decide (a.toNat < b.toNat)

def depLe (x y : Dep) : Bool := leChars x.nome.data y.nome.data

def insertSorted (x : Dep) : List Dep → List Dep
  | [] => [x]
  | y :: ys => if depLe x y then x :: y :: ys else y :: insertSorted x ys

/-- Deterministic sort by `nome`, modelling `sort_values(["Nome"])`. -/
def sortByNome : List Dep → List Dep
  | [] => []
  | x :: xs => insertSorted x (sortByNome xs)

/-- Split on `'\n'`, the line splitting underlying `str.splitlines()`
(a `'\r'` of a CRLF pair is whitespace and is removed by the per-line
strip that follows). -/
def splitOnNl : List Char → List (List Char)
  | [] => [[]]
  | c :: cs =>
    if c = '\n' then [] :: splitOnNl cs
    else
      match splitOnNl cs with
      | r :: rs => (c :: r) :: rs
      | [] => [[c]]

def splitLinesStr (s : String) : List String := (splitOnNl s.data).map String.mk

/-- String-level `str.strip()`. -/
def stripStr (s : String) : String := String.mk (stripWsL s.data)

/-- The keep condition of the first loop of `parse_assinantes`, applied to
an already stripped line: not empty, normalization not empty, and the
normalization is not in the `STOPWORDS_LINHAS` blacklist. -/
def lineKeep (l : String) : Bool :=
  !(l == "") && !(normalize_name l == "") &&
  !(decide (normalize_name l ∈ STOPWORDS_LINHAS))

/-- The first loop of `parse_assinantes`: strip every line, drop the blank
and blacklisted ones. -/
def survivors (lines : List String) : List String :=
  (lines.map stripStr).filter lineKeep

/-- The second loop of `parse_assinantes`: deduplicate by normalized key,
keeping the first spelling (the source appends `x.strip()`, hence the
`stripStr`). -/
def dedupKeys : List String → List String → List String
  | _, [] => []
  | seen, x :: xs =>
    if normalize_name x ∈ seen then dedupKeys seen xs
    else stripStr x :: dedupKeys (normalize_name x :: seen) xs

/-- `parse_assinantes` on an already split list of lines. -/
def parse_assinantes_lines (lines : List String) : List String :=
  dedupKeys [] (survivors lines)

/-- Embedding of `parse_assinantes` (src/app_pec_assinaturas.py:402-423). -/
def parse_assinantes (raw : String) : List String :=
  parse_assinantes_lines (splitLinesStr raw)

/-- The full engine run of the app: parse the pasted text, match against
the roster, and sort the matched table by name, as the page does before
rendering. -/
def run_report (text : String) (deps : List Dep) : List Dep × List String :=
  (sortByNome (match_assinantes (parse_assinantes text) deps).1,
   (match_assinantes (parse_assinantes text) deps).2)

/-- Variant of `dedupKeys` without the (idempotent) re-strip of the
emitted line; used to reason about `dedupKeys` on already stripped
input. -/
def dedupFirst : List String → List String → List String
  | _, [] => []
  | seen, x :: xs =>
    if normalize_name x ∈ seen then dedupFirst seen xs
    else x :: dedupFirst (normalize_name x :: seen) xs

/-- Modelled from the spec: the linking stopwords of the Tokenizer
("de", "da", "do", "dos", "das", "e"); no loose tier exists in src/. -/
def STOP_TOKENS : List (List Char) :=
  [ "de".data, "da".data, "do".data, "dos".data, "das".data, "e".data ]

/-- Modelled from the spec: the SUFFIX set of generational suffixes used
by the Affix Stripper; no suffix stripping exists in src/. -/
def SUFFIXES_SPEC : List (List Char) :=
  [ "filho".data, "junior".data, "jr".data, "neto".data ]

/-- Tokenizer: split a normalized string on whitespace. -/
def splitWsAux : List Char → List Char → List (List Char)
  | [], acc => if acc.isEmpty then [] else [acc.reverse]
  | c :: cs, acc =>
    if isWsCh c then
      if acc.isEmpty then splitWsAux cs [] else acc.reverse :: splitWsAux cs []
    else splitWsAux cs (c :: acc)

def splitWsL (l : List Char) : List (List Char) := splitWsAux l []

/-- Modelled from the spec: repeatedly remove the first token while it is
in the TITLE set (spec §4.3); the code's stripper is `stripTitleL`. -/
def stripTitlesSpec (toks : List (List Char)) : List (List Char) :=
  toks.dropWhile (fun w => TITLES.contains w)

/-- Modelled from the spec: repeatedly remove the last token while it is
in the SUFFIX set (spec §4.3). -/
def stripSuffixesSpec (toks : List (List Char)) : List (List Char) :=
  (toks.reverse.dropWhile (fun w => SUFFIXES_SPEC.contains w)).reverse

/-- Modelled from the spec: LooseKey token pipeline (stopwords out, titles
off the front, suffixes off the back). -/
def looseToksSpec (toks : List (List Char)) : List (List Char) :=
  stripSuffixesSpec (stripTitlesSpec (toks.filter (fun w => !(STOP_TOKENS.contains w))))

/-- Rejoin tokens with single spaces. -/
def joinSpace : List (List Char) → List Char
  | [] => []
  | [w] => w
  | w :: ws => w ++ ' ' :: joinSpace ws

/-- Modelled from the spec: the LooseKey of a (normalized) string. -/
def looseKeySpec (s : String) : String :=
  String.mk (joinSpace (looseToksSpec (splitWsL s.data)))

/-- Modelled from the spec: the LooseKey → list-of-ids inverted index over
the roster (spec §4.5); absent from src/. -/
def looseIndexSpec (deps : List Dep) (k : String) : List Nat :=
  (deps.filter (fun d => looseKeySpec d.key == k)).map Dep.id

/-- Modelled from the spec: Jaccard index of the two token sets
(spec §4.9 step 4); no fuzzy tier exists in src/. -/
def jaccardSpec (s c : List String) : ℚ :=
  ((s.toFinset ∩ c.toFinset).card : ℚ) / ((s.toFinset ∪ c.toFinset).card : ℚ)

/-- Modelled from the spec: the 3-character-prefix bonus condition on the
first tokens (spec §4.9 step 4). -/
def bonus3 (s c : List String) : Bool :=
  match s.head?, c.head? with
  | some a, some b => a.data.take 3 == b.data.take 3
  | _, _ => false

/-- Modelled from the spec: fuzzy similarity score, Jaccard plus the 0.05
first-token prefix bonus. -/
def fuzzyScoreSpec (s c : List String) : ℚ :=
  jaccardSpec s c + (if bonus3 s c then 1 / 20 else 0)

/-- Token-level description of what the code's title strip actually does:
remove the first token when it is a title followed by at least one more
token, and nothing else. -/
def stripTokOnce : List (List Char) → List (List Char)
  | [] => []
  | t :: rest => if t ∈ TITLES ∧ rest ≠ [] then rest else t :: rest

/-- Concrete roster entries used in witnesses and counterexamples. -/
def depJordy : Dep := ⟨1, "Carlos Jordy", "PL", "RJ", ""⟩

def depZucco : Dep := ⟨2, "Zucco", "REP", "RS", ""⟩

def depJoseA : Dep := ⟨3, "José Medeiros", "PL", "MT", ""⟩

def depJoseB : Dep := ⟨4, "Jose Medeiros", "PP", "SP", ""⟩

def depJulia : Dep := ⟨5, "Júlia Zanatta", "PL", "SC", ""⟩

def depPaulo : Dep := ⟨6, "Paulo Freire", "PL", "SP", ""⟩

/-- Last element of a list, as an option (with equations convenient for
induction). -/
def lastOpt {α : Type} : List α → Option α
  | [] => none
  | [a] => some a
  | _ :: b :: t => lastOpt (b :: t)

/-- No two adjacent whitespace characters. -/
def nodoubleB : List Char → Bool
  | [] => true
  | a :: t =>
    (match t.head? with
     | some b => !(isWsCh a && isWsCh b)
     | none => true) && nodoubleB t

/-- Every character is a lower-case ASCII letter, a digit, or a space. -/
def charsOkP (l : List Char) : Prop := ∀ c ∈ l, lowerAlnumB c = true ∨ c = ' '

/-- The first character, if any, is not whitespace. -/
def headOkP (l : List Char) : Prop := ∀ c, l.head? = some c → isWsCh c = false

/-- The last character, if any, is not whitespace. -/
def lastOkP (l : List Char) : Prop := ∀ c, lastOpt l = some c → isWsCh c = false

/-- Canonical form of `normalize_name` outputs: lower-case alphanumeric
words separated by single spaces, no leading or trailing space. -/
def canonP (l : List Char) : Prop :=
  charsOkP l ∧ nodoubleB l = true ∧ headOkP l ∧ lastOkP l


/-! Canonical-form machinery for `normalize_name`. -/

theorem nodouble_cons (a : Char) (t : List Char) :
    nodoubleB (a :: t) =
      ((match t.head? with
        | some b => !(isWsCh a && isWsCh b)
        | none => true) && nodoubleB t) := rfl

theorem ws_of_P {c : Char} (hP : lowerAlnumB c = true ∨ c = ' ')
    (hw : isWsCh c = true) : c = ' ' := by
  simp only [isWsCh, Bool.or_eq_true, beq_iff_eq] at hw
  rcases hw with
    ((((((((((rfl | rfl) | rfl) | rfl) | rfl) | rfl) | rfl) | rfl) | rfl) | rfl) | rfl) | rfl <;>
    revert hP <;> decide

theorem toNat_le_of_P {c : Char} (hP : lowerAlnumB c = true ∨ c = ' ') :
    c.toNat ≤ 122 := by
  rcases hP with h | rfl
  · simp only [lowerAlnumB, Bool.or_eq_true, Bool.and_eq_true, decide_eq_true_eq] at h
    omega
  · decide

theorem replQuote_of_P {c : Char} (hP : lowerAlnumB c = true ∨ c = ' ') :
    replQuote c = c := by
  have h1 := toNat_le_of_P hP
  have e1 : ('’').toNat = 8217 := by decide
  have e2 : ('“').toNat = 8220 := by decide
  have e3 : ('”').toNat = 8221 := by decide
  unfold replQuote
  rw [if_neg, if_neg, if_neg]
  · intro hb; rw [beq_iff_eq] at hb; subst hb; omega
  · intro hb; rw [beq_iff_eq] at hb; subst hb; omega
  · intro hb; rw [beq_iff_eq] at hb; subst hb; omega

theorem nfkd_of_P {c : Char} (hP : lowerAlnumB c = true ∨ c = ' ') :
    nfkd c = [c] := by
  have h1 := toNat_le_of_P hP
  unfold nfkd
  rw [if_pos (by omega)]

theorem combining_of_P {c : Char} (hP : lowerAlnumB c = true ∨ c = ' ') :
    combiningB c = false := by
  have h1 := toNat_le_of_P hP
  unfold combiningB
  rw [decide_eq_false (by omega : ¬768 ≤ c.toNat)]
  rfl

theorem toLower_of_P {c : Char} (hP : lowerAlnumB c = true ∨ c = ' ') :
    toLowerCh c = c := by
  have h1 : ¬(65 ≤ c.toNat ∧ c.toNat ≤ 90) := by
    rcases hP with h | rfl
    · simp only [lowerAlnumB, Bool.or_eq_true, Bool.and_eq_true, decide_eq_true_eq] at h
      omega
    · decide
  unfold toLowerCh
  rw [if_neg (by simp only [Bool.and_eq_true, decide_eq_true_eq]; exact h1)]

theorem keep_of_P {c : Char} (hP : lowerAlnumB c = true ∨ c = ' ') :
    keepCh c = true := by
  rcases hP with h | rfl
  · simp [keepCh, h]
  · decide

theorem map_id_of_P {l : List Char} (f : Char → Char) (hc : charsOkP l)
    (hf : ∀ c, lowerAlnumB c = true ∨ c = ' ' → f c = c) : l.map f = l := by
  induction l with
  | nil => rfl
  | cons a t ih =>
    simp only [List.map_cons, List.cons.injEq]
    exact ⟨hf a (hc a (List.mem_cons_self a t)),
           ih (fun c hcc => hc c (List.mem_cons_of_mem _ hcc))⟩

theorem nfkdAll_of_P {l : List Char} (hc : charsOkP l) : nfkdAll l = l := by
  induction l with
  | nil => rfl
  | cons a t ih =>
    simp only [nfkdAll]
    rw [nfkd_of_P (hc a (List.mem_cons_self a t)),
        ih (fun c hcc => hc c (List.mem_cons_of_mem _ hcc))]
    rfl

theorem filter_id_of_true {l : List Char} {p : Char → Bool}
    (h : ∀ c ∈ l, p c = true) : l.filter p = l := by
  induction l with
  | nil => rfl
  | cons a t ih =>
    rw [List.filter_cons, if_pos (h a (List.mem_cons_self a t)),
        ih (fun c hcc => h c (List.mem_cons_of_mem _ hcc))]

theorem collapseAux_of_canon {l : List Char} (hc : charsOkP l)
    (hnd : nodoubleB l = true) :
    collapseAux l false = l ∧ (headOkP l → collapseAux l true = l) := by
  induction l with
  | nil => exact ⟨rfl, fun _ => rfl⟩
  | cons a t ih =>
    have hct : charsOkP t := fun c hcc => hc c (List.mem_cons_of_mem _ hcc)
    have hndt : nodoubleB t = true := by
      rw [nodouble_cons, Bool.and_eq_true] at hnd; exact hnd.2
    obtain ⟨ih1, ih2⟩ := ih hct hndt
    cases hw : isWsCh a with
    | true =>
      have ha : a = ' ' := ws_of_P (hc a (List.mem_cons_self a t)) hw
      have hht : headOkP t := by
        intro c hcc
        rw [nodouble_cons, hcc, Bool.and_eq_true] at hnd
        have h1 := hnd.1
        rw [hw, Bool.not_eq_true', Bool.true_and] at h1
        exact h1
      constructor
      · simp only [collapseAux, hw, if_true]
        rw [if_neg (by simp), ih2 hht, ha]
      · intro hh
        exact absurd (hh a rfl) (by simp [hw])
    | false =>
      constructor
      · simp only [collapseAux, hw]
        rw [if_neg (by simp), ih1]
      · intro _
        simp only [collapseAux, hw]
        rw [if_neg (by simp), ih1]

theorem collapse_of_canon {l : List Char} (hc : canonP l) : collapseWs l = l :=
  (collapseAux_of_canon hc.1 hc.2.1).1

theorem dropWhile_of_headOk {l : List Char} (hh : headOkP l) :
    l.dropWhile isWsCh = l := by
  cases l with
  | nil => rfl
  | cons a t =>
    have h1 := hh a rfl
    simp [List.dropWhile_cons, h1]

theorem lastOk_tail {a b : Char} {u : List Char} (hl : lastOkP (a :: b :: u)) :
    lastOkP (b :: u) := fun c hcc => hl c hcc

theorem dropTrail_cons (a : Char) (t : List Char) :
    dropTrailWs (a :: t) =
      if (dropTrailWs t).isEmpty && isWsCh a then [] else a :: dropTrailWs t := rfl

theorem dropTrail_of_lastOk {l : List Char} (hl : lastOkP l) :
    dropTrailWs l = l := by
  induction l with
  | nil => rfl
  | cons a t ih =>
    cases t with
    | nil =>
      have h1 : isWsCh a = false := hl a rfl
      simp [dropTrail_cons, dropTrailWs, h1]
    | cons b u =>
      have ht := ih (lastOk_tail hl)
      rw [dropTrail_cons, ht]
      simp

theorem stripWs_of_canon {l : List Char} (hh : headOkP l) (hl : lastOkP l) :
    stripWsL l = l := by
  unfold stripWsL
  rw [dropWhile_of_headOk hh, dropTrail_of_lastOk hl]

theorem normalize_of_canon {l : List Char} (hc : canonP l) : normalizeL l = l := by
  obtain ⟨h1, h2, h3, h4⟩ := hc
  have e1 : stripWsL l = l := stripWs_of_canon h3 h4
  have e2 : collapseWs l = l := collapse_of_canon ⟨h1, h2, h3, h4⟩
  have e3 : l.map replQuote = l :=
    map_id_of_P replQuote h1 (fun c hp => replQuote_of_P hp)
  have e4 : nfkdAll l = l := nfkdAll_of_P h1
  have e5 : l.filter (fun c => !combiningB c) = l :=
    filter_id_of_true (fun c hcc => by rw [combining_of_P (h1 c hcc)]; rfl)
  have e6 : l.map toLowerCh = l :=
    map_id_of_P toLowerCh h1 (fun c hp => toLower_of_P hp)
  have e7 : l.filter keepCh = l := filter_id_of_true (fun c hcc => keep_of_P (h1 c hcc))
  unfold normalizeL
  rw [e1, e2, e3, e4, e5, e6, e7, e2, e1]

theorem collapseAux_cons_ws_t {a : Char} {t : List Char} (hw : isWsCh a = true) :
    collapseAux (a :: t) true = collapseAux t true := by
  simp [collapseAux, hw]

theorem collapseAux_cons_ws_f {a : Char} {t : List Char} (hw : isWsCh a = true) :
    collapseAux (a :: t) false = ' ' :: collapseAux t true := by
  simp [collapseAux, hw]

theorem collapseAux_cons_nws {a : Char} {t : List Char} (b : Bool)
    (hw : isWsCh a = false) : collapseAux (a :: t) b = a :: collapseAux t false := by
  simp [collapseAux, hw]

theorem collapse_chars {l : List Char} (h : ∀ c ∈ l, keepCh c = true) :
    ∀ b, ∀ c ∈ collapseAux l b, lowerAlnumB c = true ∨ c = ' ' := by
  induction l with
  | nil => intro b c hc; simp [collapseAux] at hc
  | cons a t ih =>
    intro b c hc
    have ha := h a (List.mem_cons_self a t)
    have ht : ∀ c ∈ t, keepCh c = true := fun c hcc => h c (List.mem_cons_of_mem _ hcc)
    cases hw : isWsCh a with
    | true =>
      cases b with
      | true =>
        rw [collapseAux_cons_ws_t hw] at hc
        exact ih ht true c hc
      | false =>
        rw [collapseAux_cons_ws_f hw] at hc
        rcases List.mem_cons.mp hc with rfl | hcc
        · exact Or.inr rfl
        · exact ih ht true c hcc
    | false =>
      rw [collapseAux_cons_nws b hw] at hc
      rcases List.mem_cons.mp hc with rfl | hcc
      · left
        have h2 := ha
        simp only [keepCh, hw, Bool.or_false] at h2
        exact h2
      · exact ih ht false c hcc

theorem collapse_head_true {l : List Char} :
    ∀ c, (collapseAux l true).head? = some c → isWsCh c = false := by
  induction l with
  | nil => intro c hc; simp [collapseAux] at hc
  | cons a t ih =>
    intro c hc
    cases hw : isWsCh a with
    | true =>
      rw [collapseAux_cons_ws_t hw] at hc
      exact ih c hc
    | false =>
      rw [collapseAux_cons_nws true hw] at hc
      simp only [List.head?_cons, Option.some.injEq] at hc
      subst hc
      exact hw

theorem collapse_nodouble {l : List Char} : ∀ b, nodoubleB (collapseAux l b) = true := by
  induction l with
  | nil => intro b; rfl
  | cons a t ih =>
    intro b
    cases hw : isWsCh a with
    | true =>
      cases b with
      | true =>
        rw [collapseAux_cons_ws_t hw]
        exact ih true
      | false =>
        rw [collapseAux_cons_ws_f hw, nodouble_cons, Bool.and_eq_true]
        refine ⟨?_, ih true⟩
        cases hh : (collapseAux t true).head? with
        | none => rfl
        | some c =>
          have hcw := collapse_head_true c hh
          simp [hcw]
    | false =>
      rw [collapseAux_cons_nws b hw, nodouble_cons, Bool.and_eq_true]
      refine ⟨?_, ih false⟩
      cases hh : (collapseAux t false).head? with
      | none => rfl
      | some c => simp [hw]

theorem mem_dropWhileWs {l : List Char} {c : Char} (h : c ∈ l.dropWhile isWsCh) :
    c ∈ l := by
  induction l with
  | nil => simp at h
  | cons a t ih =>
    rw [List.dropWhile_cons] at h
    by_cases hw : isWsCh a = true
    · rw [if_pos hw] at h
      exact List.mem_cons_of_mem _ (ih h)
    · rw [if_neg hw] at h
      exact h

theorem mem_dropTrail {l : List Char} {c : Char} (h : c ∈ dropTrailWs l) : c ∈ l := by
  induction l with
  | nil => simp [dropTrailWs] at h
  | cons a t ih =>
    rw [dropTrail_cons] at h
    by_cases hcond : ((dropTrailWs t).isEmpty && isWsCh a) = true
    · rw [if_pos hcond] at h
      simp at h
    · rw [if_neg hcond] at h
      rcases List.mem_cons.mp h with rfl | hm
      · exact List.mem_cons_self _ _
      · exact List.mem_cons_of_mem _ (ih hm)

theorem headOk_dropWhile (l : List Char) : headOkP (l.dropWhile isWsCh) := by
  induction l with
  | nil => intro c hc; simp at hc
  | cons a t ih =>
    intro c hc
    rw [List.dropWhile_cons] at hc
    by_cases hw : isWsCh a = true
    · rw [if_pos hw] at hc
      exact ih c hc
    · rw [if_neg hw] at hc
      simp only [List.head?_cons, Option.some.injEq] at hc
      subst hc
      revert hw
      cases isWsCh a <;> simp

theorem head_dropTrail {l : List Char} {c : Char} (h : (dropTrailWs l).head? = some c) :
    l.head? = some c := by
  cases l with
  | nil => simp [dropTrailWs] at h
  | cons a t =>
    rw [dropTrail_cons] at h
    by_cases hcond : ((dropTrailWs t).isEmpty && isWsCh a) = true
    · rw [if_pos hcond] at h
      simp at h
    · rw [if_neg hcond] at h
      exact h

theorem lastOk_dropTrail (l : List Char) : lastOkP (dropTrailWs l) := by
  induction l with
  | nil => intro c hc; simp [dropTrailWs, lastOpt] at hc
  | cons a t ih =>
    intro c hc
    rw [dropTrail_cons] at hc
    by_cases hcond : ((dropTrailWs t).isEmpty && isWsCh a) = true
    · rw [if_pos hcond] at hc
      simp [lastOpt] at hc
    · rw [if_neg hcond] at hc
      cases hr : dropTrailWs t with
      | nil =>
        rw [hr] at hc
        simp only [lastOpt, Option.some.injEq] at hc
        subst hc
        rw [hr] at hcond
        simp only [List.isEmpty_nil, Bool.true_and] at hcond
        revert hcond
        cases isWsCh a <;> simp
      | cons b u =>
        rw [hr] at hc
        exact ih c (by rw [hr]; exact hc)

theorem nodouble_tail {a : Char} {t : List Char} (h : nodoubleB (a :: t) = true) :
    nodoubleB t = true := by
  rw [nodouble_cons, Bool.and_eq_true] at h
  exact h.2

theorem nodouble_dropWhile {l : List Char} (h : nodoubleB l = true) :
    nodoubleB (l.dropWhile isWsCh) = true := by
  induction l with
  | nil => exact h
  | cons a t ih =>
    rw [List.dropWhile_cons]
    by_cases hw : isWsCh a = true
    · rw [if_pos hw]
      exact ih (nodouble_tail h)
    · rw [if_neg hw]
      exact h

theorem nodouble_dropTrail {l : List Char} (h : nodoubleB l = true) :
    nodoubleB (dropTrailWs l) = true := by
  induction l with
  | nil => exact h
  | cons a t ih =>
    rw [dropTrail_cons]
    by_cases hcond : ((dropTrailWs t).isEmpty && isWsCh a) = true
    · rw [if_pos hcond]
      rfl
    · rw [if_neg hcond]
      rw [nodouble_cons, Bool.and_eq_true]
      refine ⟨?_, ih (nodouble_tail h)⟩
      cases hh : (dropTrailWs t).head? with
      | none => rfl
      | some b =>
        have hb : t.head? = some b := head_dropTrail hh
        rw [nodouble_cons, hb, Bool.and_eq_true] at h
        exact h.1

theorem canon_strip_collapse {x : List Char} (hq : ∀ c ∈ x, keepCh c = true) :
    canonP (stripWsL (collapseWs x)) := by
  have hchars := collapse_chars hq false
  refine ⟨?_, ?_, ?_, ?_⟩
  · intro c hc
    exact hchars c (mem_dropWhileWs (mem_dropTrail hc))
  · exact nodouble_dropTrail (nodouble_dropWhile (collapse_nodouble false))
  · intro c hc
    exact headOk_dropWhile (collapseWs x) c (head_dropTrail hc)
  · exact lastOk_dropTrail _

theorem canon_normalize (l : List Char) : canonP (normalizeL l) := by
  unfold normalizeL
  apply canon_strip_collapse
  intro c hc
  exact List.of_mem_filter hc

/-! Lemmas about `build_index` and `matchLoop`. -/

theorem lastOpt_cons_ne {α : Type} (a : α) {l : List α} (h : l ≠ []) :
    lastOpt (a :: l) = lastOpt l := by
  cases l with
  | nil => exact absurd rfl h
  | cons b u => rfl

theorem lastOpt_eq_none_iff {α : Type} (l : List α) : lastOpt l = none ↔ l = [] := by
  induction l with
  | nil => simp [lastOpt]
  | cons a t ih =>
    cases t with
    | nil => simp [lastOpt]
    | cons b u =>
      rw [lastOpt_cons_ne a (by simp)]
      simp only [ih]
      simp

theorem build_index_foldl (deps : List Dep) (m : String → Option Dep) (k : String) :
    deps.foldl (fun m dep => fun k => if k = dep.key then some dep else m k) m k =
      (match lastOpt (deps.filter (fun d => d.key == k)) with
       | some d => some d
       | none => m k) := by
  induction deps generalizing m with
  | nil => rfl
  | cons d t ih =>
    rw [List.foldl_cons, ih, List.filter_cons]
    by_cases hk : d.key = k
    · have hb : (d.key == k) = true := beq_iff_eq.mpr hk
      simp only [hb, eq_self_iff_true, if_true]
      cases hlf : lastOpt (t.filter (fun x => x.key == k)) with
      | some x =>
        have hne : t.filter (fun x => x.key == k) ≠ [] := by
          intro h0
          rw [h0] at hlf
          simp [lastOpt] at hlf
        rw [lastOpt_cons_ne d hne, hlf]
      | none =>
        have h0 : t.filter (fun x => x.key == k) = [] :=
          (lastOpt_eq_none_iff _).mp hlf
        rw [h0]
        show (if k = d.key then some d else m k) = some d
        rw [if_pos hk.symm]
    · have hb : (d.key == k) = false := by
        cases hbk : d.key == k
        · rfl
        · exact absurd (beq_iff_eq.mp hbk) hk
      simp only [hb]
      rw [if_neg (by decide : ¬(false = true))]
      cases hlf : lastOpt (t.filter (fun x => x.key == k)) with
      | some x => rfl
      | none =>
        show (if k = d.key then some d else m k) = m k
        rw [if_neg (fun h => hk h.symm)]

theorem matchLoop_nodup (idx : String → Option Dep) (names : List String)
    (seen : List Nat) :
    ((matchLoop idx names seen).1.map Dep.id).Nodup ∧
    ∀ x ∈ (matchLoop idx names seen).1, x.id ∉ seen := by
  induction names generalizing seen with
  | nil =>
    refine ⟨List.nodup_nil, ?_⟩
    intro x hx
    simp [matchLoop] at hx
  | cons n rest ih =>
    by_cases hk : normalize_name n = ""
    · simpa [matchLoop, hk] using ih seen
    · cases hl : idxLookup idx (normalize_name n) with
      | none =>
        simpa only [matchLoop, if_neg hk, hl] using ih seen
      | some d =>
        by_cases hs : d.id ∈ seen
        · simpa only [matchLoop, if_neg hk, hl, if_pos hs] using ih seen
        · simp only [matchLoop, if_neg hk, hl, if_neg hs]
          obtain ⟨ih1, ih2⟩ := ih (d.id :: seen)
          constructor
          · simp only [List.map_cons, List.nodup_cons]
            refine ⟨?_, ih1⟩
            intro hmem
            rcases List.mem_map.mp hmem with ⟨x, hx, hxid⟩
            exact ih2 x hx (by rw [hxid]; exact List.mem_cons_self _ _)
          · intro x hx
            rcases List.mem_cons.mp hx with rfl | hx2
            · exact hs
            · exact fun hxs => ih2 x hx2 (List.mem_cons_of_mem _ hxs)

/-! Claim theorems. -/

/-- C7: normalization is idempotent: for every string `x`,
`normalize_name (normalize_name x) = normalize_name x`. -/
theorem C7_theorem (s : String) :
    normalize_name (normalize_name s) = normalize_name s := by
  unfold normalize_name
  exact congrArg String.mk (normalize_of_canon (canon_normalize s.data))

/-- C4 counterexample: `normalize_name` DELETES non-alphanumeric
characters instead of replacing them with a space, so "O'Neill"
normalizes to "oneill" and not to the claimed "o neill". -/
theorem C4_counterexample :
    normalize_name "O'Neill" = "oneill" ∧ normalize_name "O'Neill" ≠ "o neill" :=
  ⟨by decide, by decide⟩

/-- C4 (amended): for every input the normalizer returns a string of
lower-case ASCII alphanumerics and single interior spaces with trimmed
ends (diacritics decomposed and removed); non-alphanumeric/non-space
characters are deleted (not blanked), so "O'Neill" gives "oneill"; the
empty string maps to the empty string. -/
theorem C4_theorem :
    (∀ s : String, canonP (normalize_name s).data) ∧
    normalize_name "" = "" ∧ normalize_name "O'Neill" = "oneill" :=
  ⟨fun s => canon_normalize s.data, by decide, by decide⟩

/-- C10: `build_index` maps each StrictKey to the LAST roster entry with
that key (later entries silently overwrite earlier ones), so the strict
lookup returns at most one candidate and a StrictKey collision is never
visible in the output. -/
theorem C10_theorem (deps : List Dep) (k : String) :
    build_index deps k = lastOpt (deps.filter (fun d => d.key == k)) := by
  unfold build_index
  rw [build_index_foldl]
  cases lastOpt (deps.filter (fun d => d.key == k)) <;> rfl

/-- C1 counterexample: the roster entries `depJoseA` and `depJoseB` share
the StrictKey "jose medeiros"; resolving the signer "José Medeiros" does
NOT produce any ambiguity marker — the signer is silently matched to the
later colliding entry. -/
theorem C1_counterexample :
    depJoseA.key = depJoseB.key ∧ depJoseA ≠ depJoseB ∧
    match_assinantes ["José Medeiros"] [depJoseA, depJoseB] = ([depJoseB], []) :=
  ⟨by decide, by decide, by decide⟩

/-- C1 (amended): when one or more roster entries carry the signer's
StrictKey, the signer is silently matched to the entry occurring LAST in
roster order; no `Ambiguous("strict")` classification and no
`ambiguousSigners` list exist in the code. -/
theorem C1_theorem (deps : List Dep) (n : String) (d : Dep)
    (ha : ALIASES_OFICIAIS.lookup (normalize_name n) = none)
    (hk : normalize_name n ≠ "")
    (hd : lastOpt (deps.filter (fun x => x.key == normalize_name n)) = some d) :
    match_assinantes [n] deps = ([d], []) := by
  have hidx : build_index deps (normalize_name n) = some d := by
    unfold build_index
    rw [build_index_foldl, hd]
  show matchLoop (build_index deps) (apply_aliases [n]) [] = ([d], [])
  have hal : apply_aliases [n] = [n] := by
    unfold apply_aliases aliasSub
    rw [List.map_cons, List.map_nil, ha]
    rfl
  rw [hal]
  have hlk : idxLookup (build_index deps) (normalize_name n) = some d := by
    unfold idxLookup
    rw [hidx]
  simp only [matchLoop, if_neg hk, hlk]
  simp [matchLoop]

/-- C1 witness: the two colliding "José Medeiros"/"Jose Medeiros" roster
entries instantiate the amended claim: the signer is matched to the later
entry. -/
theorem C1_witness :
    ALIASES_OFICIAIS.lookup (normalize_name "José Medeiros") = none ∧
    normalize_name "José Medeiros" ≠ "" ∧
    lastOpt ([depJoseA, depJoseB].filter
      (fun x => x.key == normalize_name "José Medeiros")) = some depJoseB ∧
    match_assinantes ["José Medeiros"] [depJoseA, depJoseB] = ([depJoseB], []) :=
  ⟨by decide, by decide, by decide,
   C1_theorem [depJoseA, depJoseB] "José Medeiros" depJoseB
     (by decide) (by decide) (by decide)⟩

/-- C2 counterexample: the spec's loose tier gives "Deputado Coronel
Zucco" the LooseKey "zucco", which hits exactly one roster entry (id 2),
so the claim demands `Matched(2, "loose")`; the code instead leaves the
signer unmatched, because it only strips a single leading title and has
no loose index. -/
theorem C2_counterexample :
    looseKeySpec (normalize_name "Deputado Coronel Zucco") = depZucco.key ∧
    looseIndexSpec [depZucco]
      (looseKeySpec (normalize_name "Deputado Coronel Zucco")) = [2] ∧
    match_assinantes ["Deputado Coronel Zucco"] [depZucco] =
      ([], ["Deputado Coronel Zucco"]) :=
  ⟨by decide, by decide, by decide⟩

/-- C2 (amended): for a signer missed by the strict lookup, the code
retries the SAME strict index with at most one leading title token
stripped from the StrictKey: a hit matches that entry, a miss leaves the
signer unmatched; there is no stopword/suffix handling, no loose index,
no ambiguity classification and no fuzzy tier. -/
theorem C2_theorem (deps : List Dep) (n : String)
    (ha : ALIASES_OFICIAIS.lookup (normalize_name n) = none)
    (hk : normalize_name n ≠ "")
    (hm : build_index deps (normalize_name n) = none) :
    match_assinantes [n] deps =
      (match build_index deps (strip_title_once (normalize_name n)) with
       | some d => ([d], [])
       | none => ([], [n])) := by
  show matchLoop (build_index deps) (apply_aliases [n]) [] = _
  have hal : apply_aliases [n] = [n] := by
    unfold apply_aliases aliasSub
    rw [List.map_cons, List.map_nil, ha]
    rfl
  rw [hal]
  have hlk : idxLookup (build_index deps) (normalize_name n) =
      build_index deps (strip_title_once (normalize_name n)) := by
    unfold idxLookup
    rw [hm]
  cases hs : build_index deps (strip_title_once (normalize_name n)) with
  | none =>
    rw [hs] at hlk
    simp only [matchLoop, if_neg hk, hlk]
  | some d =>
    rw [hs] at hlk
    simp only [matchLoop, if_neg hk, hlk]
    simp [matchLoop]

/-- C2 witness: "Deputado Carlos Jordy" misses strictly, the single title
strip recovers "carlos jordy", and the signer matches the roster entry. -/
theorem C2_witness :
    ALIASES_OFICIAIS.lookup (normalize_name "Deputado Carlos Jordy") = none ∧
    normalize_name "Deputado Carlos Jordy" ≠ "" ∧
    build_index [depJordy] (normalize_name "Deputado Carlos Jordy") = none ∧
    match_assinantes ["Deputado Carlos Jordy"] [depJordy] = ([depJordy], []) := by
  refine ⟨by decide, by decide, by decide, ?_⟩
  have h := C2_theorem [depJordy] "Deputado Carlos Jordy"
    (by decide) (by decide) (by decide)
  rw [h]
  decide

/-- C3 counterexample: on the StrictKey "deputado coronel assis" the
code's stripper removes only the first title ("deputado") and keeps
"coronel", while the claimed repeated removal would also drop
"coronel". -/
theorem C3_counterexample :
    strip_title_once "deputado coronel assis" = "coronel assis" ∧
    stripTitlesSpec ["deputado".data, "coronel".data, "assis".data] =
      ["assis".data] ∧
    ("coronel assis" : String) ≠ "assis" :=
  ⟨by decide, by decide, by decide⟩

/-- C5: the matched population never repeats a roster id, and the two
accent variants of "Júlia Zanatta" resolve to a single occurrence of the
same roster entry. -/
theorem C5_theorem :
    (∀ (raw : List String) (deps : List Dep),
       ((match_assinantes raw deps).1.map Dep.id).Nodup) ∧
    match_assinantes ["Júlia Zanatta", "Julia Zanatta"] [depJulia] =
      ([depJulia], []) := by
  constructor
  · intro raw deps
    exact (matchLoop_nodup (build_index deps) (apply_aliases raw) []).1
  · decide

/-- C8: resolving "Paulinho Freire" against the roster `[{6, "Paulo
Freire"}]` leaves the signer unmatched, and the spec's fuzzy score for
the token sets {paulinho, freire} vs {paulo, freire} is 1/3 + 0.05 =
23/60, below the acceptance threshold 0.55. -/
theorem C8_theorem :
    match_assinantes ["Paulinho Freire"] [depPaulo] = ([], ["Paulinho Freire"]) ∧
    fuzzyScoreSpec ["paulinho", "freire"] ["paulo", "freire"] = 23 / 60 ∧
    (23 / 60 : ℚ) < 11 / 20 := by
  refine ⟨by decide, ?_, by norm_num⟩
  have h1 : (["paulinho", "freire"].toFinset ∩ ["paulo", "freire"].toFinset).card = 1 := by
    decide
  have h2 : (["paulinho", "freire"].toFinset ∪ ["paulo", "freire"].toFinset).card = 3 := by
    decide
  have h3 : bonus3 ["paulinho", "freire"] ["paulo", "freire"] = true := by decide
  unfold fuzzyScoreSpec jaccardSpec
  rw [h1, h2, h3]
  norm_num

/-- C9: the engine run is a pure function of the pasted text and the
roster snapshot: equal inputs give equal reports (same sorted matched
table, same unmatched list in the same order). -/
theorem C9_theorem (t1 t2 : String) (deps1 deps2 : List Dep)
    (h1 : t1 = t2) (h2 : deps1 = deps2) :
    run_report t1 deps1 = run_report t2 deps2 := by
  rw [h1, h2]

/-- C9 witness: a concrete double run on identical inputs. -/
theorem C9_witness :
    "Zucco" = "Zucco" ∧ ([depZucco] : List Dep) = [depZucco] ∧
    run_report "Zucco" [depZucco] = run_report "Zucco" [depZucco] :=
  ⟨rfl, rfl, C9_theorem "Zucco" "Zucco" [depZucco] [depZucco] rfl rfl⟩

/-! Machinery for the title-strip characterization (claim C3). -/

theorem mem_of_prefixB {l : List Char} : ∀ {k : List Char}, prefixB l k = true →
    ∀ c ∈ l, c ∈ k := by
  induction l with
  | nil =>
    intro k _ c hc
    simp at hc
  | cons a as ih =>
    intro k h c hc
    cases k with
    | nil => simp [prefixB] at h
    | cons b bs =>
      simp only [prefixB, Bool.and_eq_true, beq_iff_eq] at h
      obtain ⟨rfl, h2⟩ := h
      rcases List.mem_cons.mp hc with rfl | hc2
      · exact List.mem_cons_self _ _
      · exact List.mem_cons_of_mem _ (ih h2 c hc2)

theorem prefixB_token_iff (j : List Char) :
    ∀ (t' t : List Char), (∀ c ∈ t', isWsCh c = false) →
      (∀ c ∈ t, isWsCh c = false) →
      (prefixB (t' ++ [' ']) (t ++ ' ' :: j) = true ↔ t' = t) := by
  intro t'
  induction t' with
  | nil =>
    intro t h1 h2
    cases t with
    | nil => simp [prefixB]
    | cons b bs =>
      simp only [List.nil_append, List.cons_append]
      constructor
      · intro h
        exfalso
        simp only [prefixB, Bool.and_eq_true, beq_iff_eq] at h
        have hb := h2 b (List.mem_cons_self _ _)
        rw [← h.1] at hb
        exact absurd hb (by decide)
      · intro h
        exact absurd h (by simp)
  | cons a as ih =>
    intro t h1 h2
    cases t with
    | nil =>
      simp only [List.nil_append, List.cons_append]
      constructor
      · intro h
        exfalso
        simp only [prefixB, Bool.and_eq_true, beq_iff_eq] at h
        have ha := h1 a (List.mem_cons_self _ _)
        rw [h.1] at ha
        exact absurd ha (by decide)
      · intro h
        simp at h
    | cons b bs =>
      simp only [List.cons_append, prefixB, Bool.and_eq_true, beq_iff_eq,
        List.cons.injEq, List.append_eq]
      rw [ih bs (fun c hc => h1 c (List.mem_cons_of_mem _ hc))
            (fun c hc => h2 c (List.mem_cons_of_mem _ hc))]

theorem joinSpace_cons_cons (w x : List Char) (xs : List (List Char)) :
    joinSpace (w :: x :: xs) = w ++ ' ' :: joinSpace (x :: xs) := rfl

theorem mem_of_lastOpt {α : Type} {l : List α} {c : α} (h : lastOpt l = some c) :
    c ∈ l := by
  induction l with
  | nil => simp [lastOpt] at h
  | cons a t ih =>
    cases t with
    | nil =>
      simp only [lastOpt, Option.some.injEq] at h
      subst h
      exact List.mem_cons_self _ _
    | cons b u =>
      have he : lastOpt (a :: b :: u) = lastOpt (b :: u) := rfl
      rw [he] at h
      exact List.mem_cons_of_mem _ (ih h)

theorem lastOpt_append {α : Type} (w r : List α) (h : r ≠ []) :
    lastOpt (w ++ r) = lastOpt r := by
  induction w with
  | nil => rfl
  | cons a u ih =>
    rw [List.cons_append,
      lastOpt_cons_ne a (fun h0 => h (List.append_eq_nil.mp h0).2), ih]

theorem headOk_joinSpace (toks : List (List Char))
    (hwf : ∀ w ∈ toks, w ≠ [] ∧ ∀ c ∈ w, isWsCh c = false) :
    headOkP (joinSpace toks) := by
  cases toks with
  | nil =>
    intro c hc
    simp [joinSpace] at hc
  | cons w ws =>
    intro c hc
    obtain ⟨hne, hchars⟩ := hwf w (List.mem_cons_self _ _)
    cases w with
    | nil => exact absurd rfl hne
    | cons a u =>
      have hh : (joinSpace ((a :: u) :: ws)).head? = some a := by
        cases ws with
        | nil => rfl
        | cons x xs => rfl
      rw [hh] at hc
      injection hc with hac
      subst hac
      exact hchars a (List.mem_cons_self _ _)

theorem joinSpace_ne_nil (x : List Char) (xs : List (List Char)) (h : x ≠ []) :
    joinSpace (x :: xs) ≠ [] := by
  cases x with
  | nil => exact absurd rfl h
  | cons a u =>
    cases xs with
    | nil => simp [joinSpace]
    | cons y ys =>
      rw [joinSpace_cons_cons]
      simp

theorem lastOk_joinSpace (toks : List (List Char))
    (hwf : ∀ w ∈ toks, w ≠ [] ∧ ∀ c ∈ w, isWsCh c = false) :
    lastOkP (joinSpace toks) := by
  induction toks with
  | nil =>
    intro c hc
    simp [joinSpace, lastOpt] at hc
  | cons w ws ih =>
    cases ws with
    | nil =>
      intro c hc
      obtain ⟨hne, hchars⟩ := hwf w (List.mem_cons_self _ _)
      exact hchars c (mem_of_lastOpt hc)
    | cons x xs =>
      intro c hc
      obtain ⟨hxne, -⟩ := hwf x (List.mem_cons_of_mem _ (List.mem_cons_self _ _))
      rw [joinSpace_cons_cons,
        lastOpt_append w (' ' :: joinSpace (x :: xs)) (by simp),
        lastOpt_cons_ne ' ' (joinSpace_ne_nil x xs hxne)] at hc
      exact ih (fun w hw => hwf w (List.mem_cons_of_mem _ hw)) c hc

theorem strip_joinSpace (toks : List (List Char))
    (hwf : ∀ w ∈ toks, w ≠ [] ∧ ∀ c ∈ w, isWsCh c = false) :
    stripWsL (joinSpace toks) = joinSpace toks :=
  stripWs_of_canon (headOk_joinSpace toks hwf) (lastOk_joinSpace toks hwf)

theorem find_unique {α : Type} [DecidableEq α] (l : List α) (p : α → Bool) (a : α)
    (hmem : a ∈ l) (hiff : ∀ x ∈ l, (p x = true ↔ x = a)) : l.find? p = some a := by
  induction l with
  | nil => simp at hmem
  | cons x xs ih =>
    by_cases hp : p x = true
    · rw [List.find?_cons_of_pos _ hp]
      rw [(hiff x (List.mem_cons_self _ _)).mp hp]
    · rw [List.find?_cons_of_neg _ (by simpa using hp)]
      rcases List.mem_cons.mp hmem with rfl | hm
      · exact absurd ((hiff a (List.mem_cons_self _ _)).mpr rfl) hp
      · exact ih hm (fun y hy => hiff y (List.mem_cons_of_mem _ hy))

theorem titles_wsFree : ∀ x ∈ TITLES, ∀ c ∈ x, isWsCh c = false := by decide

/-- C3 (amended): the code's title stripper removes AT MOST ONE leading
title token: on a space-joined token sequence it removes the first token
exactly when that token is in the TITLE set and at least one token
follows, and leaves everything else (including a second leading title)
in place. -/
theorem C3_theorem (toks : List (List Char))
    (hwf : ∀ w ∈ toks, w ≠ [] ∧ ∀ c ∈ w, isWsCh c = false) :
    stripTitleL (joinSpace toks) = joinSpace (stripTokOnce toks) := by
  cases toks with
  | nil => decide
  | cons t rest =>
    obtain ⟨hne, hchars⟩ := hwf t (List.mem_cons_self _ _)
    cases rest with
    | nil =>
      have hfind : TITLES.find? (fun x => prefixB (x ++ [' ']) (joinSpace [t])) = none := by
        rw [List.find?_eq_none]
        intro x hx hp
        have hsp : (' ' : Char) ∈ joinSpace [t] :=
          mem_of_prefixB hp ' ' (by simp)
        have hws := hchars ' ' hsp
        exact absurd hws (by decide)
      show stripTitleL (joinSpace [t]) = joinSpace (stripTokOnce [t])
      unfold stripTitleL
      rw [hfind]
      show stripWsL (joinSpace [t]) = joinSpace (stripTokOnce [t])
      rw [strip_joinSpace [t] hwf]
      have hs : stripTokOnce [t] = [t] := by simp [stripTokOnce]
      rw [hs]
    | cons u us =>
      have hwfr : ∀ w ∈ u :: us, w ≠ [] ∧ ∀ c ∈ w, isWsCh c = false :=
        fun w hw => hwf w (List.mem_cons_of_mem _ hw)
      have hj : joinSpace (t :: u :: us) = t ++ ' ' :: joinSpace (u :: us) :=
        joinSpace_cons_cons t u us
      by_cases ht : t ∈ TITLES
      · have hfind : TITLES.find?
            (fun x => prefixB (x ++ [' ']) (joinSpace (t :: u :: us))) = some t := by
          apply find_unique _ _ _ ht
          intro x hx
          rw [hj]
          exact prefixB_token_iff (joinSpace (u :: us)) x t (titles_wsFree x hx) hchars
        show stripTitleL (joinSpace (t :: u :: us)) = joinSpace (stripTokOnce (t :: u :: us))
        unfold stripTitleL
        rw [hfind]
        show stripWsL ((joinSpace (t :: u :: us)).drop (t.length + 1)) = _
        have hdrop : (joinSpace (t :: u :: us)).drop (t.length + 1) = joinSpace (u :: us) := by
          rw [hj]
          have hassoc : t ++ ' ' :: joinSpace (u :: us) =
              (t ++ [' ']) ++ joinSpace (u :: us) := by
            rw [List.append_assoc]
            rfl
          rw [hassoc]
          have hlen : (t ++ [' ']).length = t.length + 1 := by simp
          rw [← hlen, List.drop_left]
        rw [hdrop, strip_joinSpace (u :: us) hwfr]
        have hs : stripTokOnce (t :: u :: us) = u :: us := by
          simp [stripTokOnce, ht]
        rw [hs]
      · have hfind : TITLES.find?
            (fun x => prefixB (x ++ [' ']) (joinSpace (t :: u :: us))) = none := by
          rw [List.find?_eq_none]
          intro x hx hp
          rw [hj] at hp
          have hxt := (prefixB_token_iff (joinSpace (u :: us)) x t
            (titles_wsFree x hx) hchars).mp hp
          exact ht (hxt ▸ hx)
        show stripTitleL (joinSpace (t :: u :: us)) = joinSpace (stripTokOnce (t :: u :: us))
        unfold stripTitleL
        rw [hfind]
        show stripWsL (joinSpace (t :: u :: us)) = _
        rw [strip_joinSpace _ hwf]
        have hs : stripTokOnce (t :: u :: us) = t :: u :: us := by
          simp [stripTokOnce, ht]
        rw [hs]

/-- C3 witness: the two-title sequence "deputado coronel assis"
instantiates the amended claim: exactly the first title is removed. -/
theorem C3_witness :
    (∀ w ∈ ["deputado".data, "coronel".data, "assis".data],
       w ≠ [] ∧ ∀ c ∈ w, isWsCh c = false) ∧
    stripTitleL (joinSpace ["deputado".data, "coronel".data, "assis".data]) =
      joinSpace (stripTokOnce ["deputado".data, "coronel".data, "assis".data]) :=
  ⟨by decide, C3_theorem ["deputado".data, "coronel".data, "assis".data] (by decide)⟩

/-! Machinery for the parse/dedup characterization (claim C6). -/

theorem headOk_stripWsL (l : List Char) : headOkP (stripWsL l) :=
  fun c hc => headOk_dropWhile l c (head_dropTrail hc)

theorem lastOk_stripWsL (l : List Char) : lastOkP (stripWsL l) :=
  lastOk_dropTrail _

theorem stripWsL_idem (l : List Char) : stripWsL (stripWsL l) = stripWsL l :=
  stripWs_of_canon (headOk_stripWsL l) (lastOk_stripWsL l)

theorem stripStr_idem (s : String) : stripStr (stripStr s) = stripStr s :=
  congrArg String.mk (stripWsL_idem s.data)

theorem survivors_strip_fixed (lines : List String) :
    ∀ x ∈ survivors lines, stripStr x = x := by
  intro x hx
  unfold survivors at hx
  have hx2 := List.mem_of_mem_filter hx
  rcases List.mem_map.mp hx2 with ⟨y, -, rfl⟩
  exact stripStr_idem y

theorem dedupKeys_eq_dedupFirst (l : List String) :
    ∀ seen, (∀ x ∈ l, stripStr x = x) → dedupKeys seen l = dedupFirst seen l := by
  induction l with
  | nil => intro seen _; rfl
  | cons x xs ih =>
    intro seen hs
    have hx := hs x (List.mem_cons_self _ _)
    have hxs : ∀ y ∈ xs, stripStr y = y := fun y hy => hs y (List.mem_cons_of_mem _ hy)
    simp only [dedupKeys, dedupFirst]
    by_cases hmem : normalize_name x ∈ seen
    · rw [if_pos hmem, if_pos hmem]
      exact ih seen hxs
    · rw [if_neg hmem, if_neg hmem, hx, ih _ hxs]

theorem dedupFirst_sublist (l : List String) :
    ∀ seen, (dedupFirst seen l).Sublist l := by
  induction l with
  | nil => intro seen; simp [dedupFirst]
  | cons x xs ih =>
    intro seen
    simp only [dedupFirst]
    by_cases hmem : normalize_name x ∈ seen
    · rw [if_pos hmem]
      exact (ih seen).cons x
    · rw [if_neg hmem]
      exact (ih _).cons₂ x

theorem dedupFirst_keys_not_seen (l : List String) :
    ∀ seen, ∀ y ∈ dedupFirst seen l, normalize_name y ∉ seen := by
  induction l with
  | nil => intro seen y hy; simp [dedupFirst] at hy
  | cons x xs ih =>
    intro seen y hy
    simp only [dedupFirst] at hy
    by_cases hmem : normalize_name x ∈ seen
    · rw [if_pos hmem] at hy
      exact ih seen y hy
    · rw [if_neg hmem] at hy
      rcases List.mem_cons.mp hy with rfl | hy2
      · exact hmem
      · exact fun hseen => ih _ y hy2 (List.mem_cons_of_mem _ hseen)

theorem dedupFirst_nodup (l : List String) :
    ∀ seen, ((dedupFirst seen l).map normalize_name).Nodup := by
  induction l with
  | nil => intro seen; simp [dedupFirst]
  | cons x xs ih =>
    intro seen
    simp only [dedupFirst]
    by_cases hmem : normalize_name x ∈ seen
    · rw [if_pos hmem]
      exact ih seen
    · rw [if_neg hmem, List.map_cons, List.nodup_cons]
      refine ⟨?_, ih _⟩
      intro hmem2
      rcases List.mem_map.mp hmem2 with ⟨y, hy, hyk⟩
      exact dedupFirst_keys_not_seen xs _ y hy (by rw [hyk]; exact List.mem_cons_self _ _)

theorem dedupFirst_complete (l : List String) :
    ∀ seen, ∀ x ∈ l, normalize_name x ∈ seen ∨
      normalize_name x ∈ (dedupFirst seen l).map normalize_name := by
  induction l with
  | nil => intro seen x hx; simp at hx
  | cons a xs ih =>
    intro seen x hx
    simp only [dedupFirst]
    by_cases hmem : normalize_name a ∈ seen
    · rw [if_pos hmem]
      rcases List.mem_cons.mp hx with rfl | hx2
      · exact Or.inl hmem
      · exact ih seen x hx2
    · rw [if_neg hmem]
      rcases List.mem_cons.mp hx with rfl | hx2
      · right
        rw [List.map_cons]
        exact List.mem_cons_self _ _
      · rcases ih (normalize_name a :: seen) x hx2 with h | h
        · rcases List.mem_cons.mp h with heq | hseen
          · right
            rw [List.map_cons, heq]
            exact List.mem_cons_self _ _
          · exact Or.inl hseen
        · right
          rw [List.map_cons]
          exact List.mem_cons_of_mem _ h

theorem dedupFirst_first (l : List String) :
    ∀ seen, ∀ y ∈ dedupFirst seen l,
      (l.filter (fun z => normalize_name z == normalize_name y)).head? = some y := by
  induction l with
  | nil => intro seen y hy; simp [dedupFirst] at hy
  | cons x xs ih =>
    intro seen y hy
    simp only [dedupFirst] at hy
    by_cases hmem : normalize_name x ∈ seen
    · rw [if_pos hmem] at hy
      have hyk := dedupFirst_keys_not_seen xs seen y hy
      have hne : normalize_name x ≠ normalize_name y := fun he => hyk (he ▸ hmem)
      rw [List.filter_cons,
        if_neg (show ¬((normalize_name x == normalize_name y) = true) by simp [hne])]
      exact ih seen y hy
    · rw [if_neg hmem] at hy
      rcases List.mem_cons.mp hy with rfl | hy2
      · rw [List.filter_cons,
          if_pos (show (normalize_name y == normalize_name y) = true by simp)]
        rfl
      · have hyk := dedupFirst_keys_not_seen xs _ y hy2
        have hne : normalize_name x ≠ normalize_name y := fun he =>
          hyk (he ▸ List.mem_cons_self _ _)
        rw [List.filter_cons,
          if_neg (show ¬((normalize_name x == normalize_name y) = true) by simp [hne])]
        exact ih _ y hy2

theorem lineKeep_iff (l : String) :
    lineKeep l = true ↔
      (l ≠ "" ∧ normalize_name l ≠ "" ∧ normalize_name l ∉ STOPWORDS_LINHAS) := by
  unfold lineKeep
  simp only [Bool.and_eq_true, Bool.not_eq_true', beq_eq_false_iff_ne, ne_eq,
    decide_eq_false_iff_not, and_assoc]

/-- C6: parsing drops blank and blacklisted lines (by StrictKey equality)
before deduplication; the dedup output has pairwise distinct StrictKeys,
is an order-preserving sublist of the filtered lines, covers every
surviving key, and each kept entry is the FIRST surviving line with its
StrictKey. -/
theorem C6_theorem (lines : List String) :
    (∀ ln ∈ lines, (stripStr ln ∈ survivors lines ↔
       (stripStr ln ≠ "" ∧ normalize_name (stripStr ln) ≠ "" ∧
        normalize_name (stripStr ln) ∉ STOPWORDS_LINHAS))) ∧
    ((parse_assinantes_lines lines).map normalize_name).Nodup ∧
    (parse_assinantes_lines lines).Sublist (survivors lines) ∧
    (∀ x ∈ survivors lines,
       normalize_name x ∈ (parse_assinantes_lines lines).map normalize_name) ∧
    (∀ y ∈ parse_assinantes_lines lines,
       ((survivors lines).filter
         (fun z => normalize_name z == normalize_name y)).head? = some y) := by
  have hsf := survivors_strip_fixed lines
  have heq : parse_assinantes_lines lines = dedupFirst [] (survivors lines) := by
    unfold parse_assinantes_lines
    exact dedupKeys_eq_dedupFirst _ [] hsf
  refine ⟨?_, ?_, ?_, ?_, ?_⟩
  · intro ln hln
    unfold survivors
    rw [List.mem_filter, lineKeep_iff]
    constructor
    · rintro ⟨-, h⟩
      exact h
    · intro h
      exact ⟨List.mem_map_of_mem stripStr hln, h⟩
  · rw [heq]
    exact dedupFirst_nodup (survivors lines) []
  · rw [heq]
    exact dedupFirst_sublist (survivors lines) []
  · intro x hx
    rw [heq]
    rcases dedupFirst_complete (survivors lines) [] x hx with h | h
    · simp at h
    · exact h
  · intro y hy
    rw [heq] at hy
    exact dedupFirst_first (survivors lines) [] y hy
